import Mathlib

/-!
# Verification of the RAG retrieval and ranking subsystem

A shallow embedding of the retrieval core of `backend/server.py`:
the chunker (`chunk_text`), the similarity ranker (`find_relevant_content`),
the RAG context assemblers (`get_rag_context`, `get_project_rag_context`),
the hybrid search engine (`smart_search_files`), the embedding persistence
routine (`process_file_embeddings`) and the reindex worker
(`reindex_embeddings.run_reindex`).

Modelling conventions:
* Python text is modelled as `List Char`; identifiers as `String`.
* Python floats are modelled as `ℚ`.  The one float computation that is not
  exactly representable over `ℚ` — the cosine similarity
  `np.dot(q,v) / (np.linalg.norm(q) * np.linalg.norm(v))`, whose denominator
  involves real square roots — is abstracted as an explicit function
  parameter `sim : List ℚ → List ℚ → ℚ`.  All guards surrounding it
  (dimension match, the `norm > 0` / `norm == 0` tests, the relevance
  thresholds) are modelled exactly: `‖v‖ = 0` over the reals is equivalent
  to `Σ vᵢ² = 0` over `ℚ`, so the norm tests are expressed via `normSq`.
* External awaited calls (the embedding backend, the record store) are
  modelled as explicit oracle parameters; database state threaded as values.
* The `while` loop of `chunk_text` is modelled with explicit fuel; a result
  of `none` means the loop has not finished within the given fuel, and
  `∀ fuel, … = none` expresses non-termination.
-/

namespace Rag

/-- Sum of squares of a vector; `normSq v = 0 ↔ ‖v‖ = 0` over the reals,
used to model the `np.linalg.norm(v) == 0` / `> 0` tests exactly. -/
def normSq (v : List ℚ) : ℚ := (v.map (fun x => x * x)).sum

/-- Dot product, `np.dot`. -/
def dotP (q v : List ℚ) : ℚ := (List.zipWith (fun a b => a * b) q v).sum

/-- Python `str.strip()`: drop whitespace from both ends. -/
def pyStrip (s : List Char) : List Char :=
  ((s.dropWhile Char.isWhitespace).reverse.dropWhile Char.isWhitespace).reverse

/-- Convenience: the character list of a string literal. -/
def strL (s : String) : List Char := s.data

/-! ## Stable descending insertion sort

Models Python's stable `list.sort(key=…, reverse=True)`: an element is
inserted in front of the first element whose key is `≤` its own, so among
equal keys the original order is preserved. -/

def insertDescBy (key : α → ℚ) (x : α) : List α → List α
  | [] => [x]
  | y :: ys => if key x < key y then y :: insertDescBy key x ys else x :: y :: ys

def sortDescBy (key : α → ℚ) : List α → List α
  | [] => []
  | x :: xs => insertDescBy key x (sortDescBy key xs)

/-! ## Chunker — `chunk_text` (server.py lines 135-147)

```python
def chunk_text(text, chunk_size=1000, overlap=200):
    if not text: return []
    chunks = []
    start = 0
    while start < len(text):
        end = start + chunk_size
        chunk = text[start:end]
        if chunk.strip(): chunks.append(chunk.strip())
        start += chunk_size - overlap
    return chunks
```

The `while` loop is modelled with fuel; `none` = the loop is still running
after `fuel` iterations.  The advance `chunk_size - overlap` is Nat
subtraction, which agrees with Python for `chunk_size ≥ overlap` (the only
regime where the loop state stays non-negative). -/

def chunkTextAux (fuel : Nat) (text : List Char) (csize overlap start : Nat) :
    Option (List (List Char)) :=
  match fuel with
  | 0 => none
  | fuel + 1 =>
    if start < text.length then
      let chunk := (text.drop start).take csize
      match chunkTextAux fuel text csize overlap (start + (csize - overlap)) with
      | none => none
      | some rest =>
          some (if pyStrip chunk ≠ [] then pyStrip chunk :: rest else rest)
    else
      some []

/-- The raw windows `text[start:start+csize]` produced by the same loop,
before per-chunk stripping and the non-empty filter. -/
def rawWindowsAux (fuel : Nat) (text : List Char) (csize overlap start : Nat) :
    Option (List (List Char)) :=
  match fuel with
  | 0 => none
  | fuel + 1 =>
    if start < text.length then
      match rawWindowsAux fuel text csize overlap (start + (csize - overlap)) with
      | none => none
      | some rest => some ((text.drop start).take csize :: rest)
    else
      some []

/-- `chunk_text` with the fuel `|text| + 1`, which is proved sufficient
whenever `overlap < csize` (`chunkTextAux_isSome`). -/
def chunk_text (text : List Char) (csize overlap : Nat) : List (List Char) :=
  (chunkTextAux (text.length + 1) text csize overlap 0).getD []

def rawWindows (text : List Char) (csize overlap : Nat) : List (List Char) :=
  (rawWindowsAux (text.length + 1) text csize overlap 0).getD []

/-- Concatenate the windows with every window's leading `overlap` characters
removed (all windows except the first begin with the `overlap` characters
shared with their predecessor). -/
def joinWithOverlapRemoved (overlap : Nat) : List (List Char) → List Char
  | [] => []
  | w :: rest => w ++ (rest.map (fun x => x.drop overlap)).flatten

/-! ## Similarity ranker — `find_relevant_content` (server.py lines 229-298)

The candidate embedding records fetched from the store are a parameter
(`embs`); the scoping query (owned-or-public files) is an excluded external
collaborator.  `sim` abstracts the float cosine computation (see header). -/

/-- A persisted embedding record (§3 of the spec; documents of the
`embeddings` collection).  A missing or null `embedding` field is modelled
as `[]`, which is exactly what the code's truthiness test `if embedding_vec`
rejects. -/
structure EmbDoc where
  id : String
  file_id : String
  chunk_index : Nat
  chunk_text : List Char
  embedding : List ℚ
deriving DecidableEq

/-- One entry of the ranker's `results` list. -/
structure RankedChunk where
  file_id : String
  chunk_text : List Char
  chunk_index : Nat
  similarity : ℚ
deriving DecidableEq

/-- The candidate loop of `find_relevant_content` (lines 272-287): skip
records whose vector is missing/empty or has a length different from the
query's; skip zero-norm vectors; keep similarities `> 0.3`. -/
def collectResults (sim : List ℚ → List ℚ → ℚ) (qemb : List ℚ) :
    List EmbDoc → List RankedChunk
  | [] => []
  | e :: es =>
    if e.embedding ≠ [] ∧ e.embedding.length = qemb.length then
      if 0 < normSq e.embedding then
        if 3/10 < sim qemb e.embedding then
          ⟨e.file_id, e.chunk_text, e.chunk_index, sim qemb e.embedding⟩
            :: collectResults sim qemb es
        else collectResults sim qemb es
      else collectResults sim qemb es
    else collectResults sim qemb es

/-- Sort descending by similarity and truncate (lines 290-291); the same
code appears verbatim in `get_project_rag_context` (lines 1853-1870) with
`limit = 5`. -/
def rankCandidates (sim : List ℚ → List ℚ → ℚ) (qemb : List ℚ)
    (embs : List EmbDoc) (limit : Nat) : List RankedChunk :=
  (sortDescBy (fun r => r.similarity) (collectResults sim qemb embs)).take limit

/-- `find_relevant_content(query, user_id, limit)`.  `client` models
`openai_client` being configured; `qemb` is the query embedding returned by
`generate_embeddings` (empty list = no embedding available). -/
def find_relevant_content (client : Bool) (sim : List ℚ → List ℚ → ℚ)
    (qemb : List ℚ) (embs : List EmbDoc) (limit : Nat) : List RankedChunk :=
  if ¬client then []
  else if qemb = [] then []
  else if embs = [] then []
  else if normSq qemb = 0 then []
  else rankCandidates sim qemb embs limit

/-! ## RAG context assemblers (server.py lines 1227-1276 and 1828-1904) -/

/-- Projection of a `files` document as fetched by the assemblers
(`original_filename`, `file_type`, `id`); absent fields are `none`
(the code reads them with `.get(…, default)`). -/
structure FileDoc where
  original_filename : Option String
  file_type : Option String
  id : Option String
deriving DecidableEq

/-- One entry of the returned `sources` list. -/
structure Source where
  file_id : String
  filename : String
  file_type : String
  passage : List Char
  relevance : ℚ
deriving DecidableEq

/-- Python `round(x, 2)` (round half to even at two decimals), applied to
the `relevance` field of a source. -/
def round2 (q : ℚ) : ℚ :=
  let x := q * 100
  let f : ℤ := ⌊x⌋
  let r := x - (f : ℚ)
  (if r < 1/2 then (f : ℚ)
   else if 1/2 < r then (f : ℚ) + 1
   else if Even f then (f : ℚ) else (f : ℚ) + 1) / 100

/-- The priority boost of `get_rag_context` (lines 1236-1240): chunks of a
priority file get `similarity = min(1.0, similarity + 0.15)`. -/
def ragBoost (priority : List String) (c : RankedChunk) : RankedChunk :=
  if c.file_id ∈ priority then
    { c with similarity := min 1 (c.similarity + 3/20) }
  else c

/-- Boost-and-re-sort (only when a priority list was supplied), then take
the top 5 (lines 1236-1244). -/
def ragTopChunks (relevant : List RankedChunk) (priority : List String) :
    List RankedChunk :=
  (if priority ≠ [] then
     sortDescBy (fun r => r.similarity) (relevant.map (ragBoost priority))
   else relevant).take 5

/-- The sources-building loop of `get_rag_context` (lines 1247-1274):
resolve the owning file (silently skipping unresolvable chunks), key the
deduplication set on `file_doc.get("id", chunk["file_id"])`, and record
the first chunk seen for each file. -/
def ragSourcesLoop (resolve : String → Option FileDoc) :
    List RankedChunk → List String → List Source
  | [], _ => []
  | c :: rest, seen =>
    match resolve c.file_id with
    | none => ragSourcesLoop resolve rest seen
    | some fd =>
      let fid := fd.id.getD c.file_id
      if fid ∈ seen then ragSourcesLoop resolve rest seen
      else
        { file_id := fid
          filename := fd.original_filename.getD "Unknown file"
          file_type := fd.file_type.getD "document"
          passage := c.chunk_text.take 300
          relevance := round2 c.similarity }
          :: ragSourcesLoop resolve rest (fid :: seen)

/-- The sources list returned by `get_rag_context` (lines 1227-1276). -/
def get_rag_sources (client : Bool) (sim : List ℚ → List ℚ → ℚ)
    (qemb : List ℚ) (embs : List EmbDoc) (priority : List String)
    (resolve : String → Option FileDoc) : List Source :=
  let relevant := find_relevant_content client sim qemb embs 8
  if relevant = [] then []
  else ragSourcesLoop resolve (ragTopChunks relevant priority) []

/-- The sources-building loop of `get_project_rag_context`
(lines 1877-1898); here the deduplication key is `chunk["file_id"]`
itself and the filename default is `"Unknown"`. -/
def projSourcesLoop (resolve : String → Option FileDoc) :
    List RankedChunk → List String → List Source
  | [], _ => []
  | c :: rest, seen =>
    match resolve c.file_id with
    | none => projSourcesLoop resolve rest seen
    | some fd =>
      if c.file_id ∈ seen then projSourcesLoop resolve rest seen
      else
        { file_id := c.file_id
          filename := fd.original_filename.getD "Unknown"
          file_type := fd.file_type.getD "document"
          passage := c.chunk_text.take 300
          relevance := round2 c.similarity }
          :: projSourcesLoop resolve rest (c.file_id :: seen)

/-- The sources list returned by `get_project_rag_context`
(lines 1828-1904): candidates restricted to the supplied project file ids,
ranking loop identical to `find_relevant_content`, top 5. -/
def get_project_rag_sources (client : Bool) (sim : List ℚ → List ℚ → ℚ)
    (qemb : List ℚ) (file_ids : List String) (embs : List EmbDoc)
    (resolve : String → Option FileDoc) : List Source :=
  if ¬client ∨ file_ids = [] then []
  else if qemb = [] then []
  else if embs = [] then []
  else if normSq qemb = 0 then []
  else projSourcesLoop resolve (rankCandidates sim qemb embs 5) []

/-! ## Hybrid search engine — `smart_search_files` (server.py lines 930-1059)

`results_map` is a Python dict keyed by file id; it is modelled as an
insertion-ordered association list, with assignment to an existing key
keeping its position (Python 3.7+ dict semantics). -/

/-- One value of `results_map` (the hybrid Search Result Entry of §3;
the underlying file document is carried separately by `resolve`). -/
structure SearchEntry where
  score : ℚ
  match_types : List String
  keyword_rank : Option Nat
  keyword_score : Option ℚ
  semantic_similarity : Option ℚ
deriving DecidableEq

/-- Dict lookup. -/
def lookupA (m : List (String × β)) (k : String) : Option β :=
  (m.find? (fun p => p.1 = k)).map (fun p => p.2)

/-- Dict assignment: overwrite in place, or append for a fresh key. -/
def setA (m : List (String × β)) (k : String) (v : β) : List (String × β) :=
  match m with
  | [] => [(k, v)]
  | (k1, v1) :: rest =>
    if k1 = k then (k, v) :: rest else (k1, v1) :: setA rest k v

/-- The keyword arm (lines 969-985): enumerate the lexical results,
skip raw scores `< 2.0`, store `min(score/10, 1.0) * 1.2` with a 1-based
keyword rank.  `kw` pairs each file id with its `textScore`. -/
def keywordPhase (i : Nat) (kw : List (String × ℚ))
    (m : List (String × SearchEntry)) : List (String × SearchEntry) :=
  match kw with
  | [] => m
  | (fid, score) :: rest =>
    if score < 2 then keywordPhase (i + 1) rest m
    else
      keywordPhase (i + 1) rest
        (setA m fid
          { score := min (score / 10) 1 * (6/5)
            match_types := ["keyword"]
            keyword_rank := some (i + 1)
            keyword_score := some score
            semantic_similarity := none })

/-- `file_best_similarity` (lines 995-1000): keep each file's best chunk
similarity, in first-appearance order. -/
def bestSims (chunks : List RankedChunk) (m : List (String × ℚ)) :
    List (String × ℚ) :=
  match chunks with
  | [] => m
  | c :: rest =>
    match lookupA m c.file_id with
    | none => bestSims rest (setA m c.file_id c.similarity)
    | some s =>
      if s < c.similarity then bestSims rest (setA m c.file_id c.similarity)
      else bestSims rest m

/-- The `file_type` re-check applied to semantic-only hits
(line 1021): `file_type and file_type != "all" and doc.file_type != file_type`. -/
def typeSkip (tf : Option String) (fd : FileDoc) : Bool :=
  match tf with
  | none => false
  | some t => t ≠ "all" && fd.file_type ≠ some t

/-- The semantic arm and fusion (lines 1002-1028): drop best similarities
`< 0.5`; merge a dual match with `max(existing_score, similarity) * 1.3`
and an appended `"semantic"` match type; a semantic-only hit is re-fetched
through the same visibility filter (`resolve`) and type filter. -/
def semanticPhase (resolve : String → Option FileDoc) (tf : Option String)
    (pairs : List (String × ℚ)) (m : List (String × SearchEntry)) :
    List (String × SearchEntry) :=
  match pairs with
  | [] => m
  | (fid, s) :: rest =>
    if s < 1/2 then semanticPhase resolve tf rest m
    else
      match lookupA m fid with
      | some e =>
        semanticPhase resolve tf rest
          (setA m fid
            { e with
              score := max e.score s * (13/10)
              match_types :=
                if "semantic" ∈ e.match_types then e.match_types
                else e.match_types ++ ["semantic"]
              semantic_similarity := some s })
      | none =>
        match resolve fid with
        | none => semanticPhase resolve tf rest m
        | some fd =>
          if typeSkip tf fd then semanticPhase resolve tf rest m
          else
            semanticPhase resolve tf rest
              (setA m fid
                { score := s
                  match_types := ["semantic"]
                  keyword_rank := none
                  keyword_score := none
                  semantic_similarity := some s })

/-- The fused `results_map` of `smart_search_files`: keyword arm first,
then the semantic arm driven by `find_relevant_content(q, user, limit=20)`
(line 992). -/
def smartSearchMap (client : Bool) (sim : List ℚ → List ℚ → ℚ)
    (qemb : List ℚ) (embs : List EmbDoc) (kw : List (String × ℚ))
    (resolve : String → Option FileDoc) (tf : Option String) :
    List (String × SearchEntry) :=
  let m := keywordPhase 0 kw []
  if client then
    semanticPhase resolve tf
      (bestSims (find_relevant_content client sim qemb embs 20) []) m
  else m

/-- Final step (lines 1033-1038): sort the merged entries descending by
fused score and paginate. -/
def smartSearchPage (m : List (String × SearchEntry)) (page limit : Nat) :
    List (String × SearchEntry) :=
  ((sortDescBy (fun p => p.2.score) m).drop ((page - 1) * limit)).take limit

/-! ## Embedding pipeline — `process_file_embeddings` (server.py lines 149-227)

The record store is threaded as an explicit value; the external batch
embedding call `generate_embeddings_batch` is an oracle
`embedBatch : List (List Char) → List (Option (List ℚ))` (a failed call
returns `[]` for the whole batch; an individual missing index stays `none`).
The oracle is a total function, so the `except` classification branch
(lines 216-227), reachable only through a raised exception, has no
counterpart in the model. -/

/-- The embedding-related fields of a `files` document, the only fields
this routine mutates. -/
structure FileMeta where
  embedding_status : String
  embedding_error : Option String
  embedding_count : Option Nat
deriving DecidableEq

/-- The slice of the record store this routine touches. -/
structure Db where
  embeddings : List EmbDoc
  files : String → FileMeta

/-- `db.files.update_one({"id": fid}, {"$set": …})` on the modelled fields. -/
def updFile (db : Db) (fid : String) (g : FileMeta → FileMeta) : Db :=
  { db with files := fun k => if k = fid then g (db.files k) else db.files k }

/-- Build the `embeddings_docs` list (lines 177-199): process the chunks in
batches of 100; a batch whose embedding call returned `[]` contributes
nothing; within a batch, `zip` pairs chunks with returned vectors and
falsy vectors are skipped.  The `range(0, len(chunks), 100)` loop is
expressed with structural fuel; each step consumes at least one chunk, so
`fuel = chunks.length` (used by `buildDocsAux`) always suffices. -/
def buildDocsGo (embedBatch : List (List Char) → List (Option (List ℚ)))
    (fid : String) : Nat → List (List Char) → Nat → List EmbDoc
  | 0, _, _ => []
  | fuel + 1, chunks, bstart =>
    match chunks with
    | [] => []
    | c :: cs =>
      let batch := (c :: cs).take 100
      let embsB := embedBatch batch
      let docs :=
        if embsB = [] then []
        else
          (batch.zip embsB).enum.filterMap (fun p =>
            match p.2.2 with
            | none => none
            | some v =>
              if v ≠ [] then
                some ⟨fid ++ "-chunk-" ++ toString (bstart + p.1), fid,
                  bstart + p.1, p.2.1, v⟩
              else none)
      docs ++ buildDocsGo embedBatch fid fuel (cs.drop 99) (bstart + 100)

def buildDocsAux (embedBatch : List (List Char) → List (Option (List ℚ)))
    (fid : String) (chunks : List (List Char)) (bstart : Nat) : List EmbDoc :=
  buildDocsGo embedBatch fid chunks.length chunks bstart

/-- `full_text = f"File: {filename}\nTags: {', '.join(tags)}\n\nContent:\n{content_text}"`
(line 166). -/
def fullText (filename : List Char) (tags : List (List Char))
    (content_text : List Char) : List Char :=
  strL "File: " ++ filename ++ strL "\nTags: "
    ++ List.intercalate (strL ", ") tags ++ strL "\n\nContent:\n" ++ content_text

/-- `process_file_embeddings(file_id, content_text, filename, tags)`
(lines 149-227). -/
def process_file_embeddings (client : Bool)
    (embedBatch : List (List Char) → List (Option (List ℚ)))
    (file_id : String) (content_text : List Char) (filename : List Char)
    (tags : List (List Char)) (db : Db) : Db :=
  if content_text = [] ∧ tags = [] then
    updFile db file_id (fun fm =>
      { fm with embedding_status := "skipped"
                embedding_error := some "No text content to embed" })
  else if ¬client then
    updFile db file_id (fun fm =>
      { fm with embedding_status := "disabled"
                embedding_error := some "AI service not configured" })
  else
    let db1 := updFile db file_id (fun fm =>
      { fm with embedding_status := "processing", embedding_error := none })
    let chunks := chunk_text (fullText filename tags content_text) 1000 200
    if chunks = [] then
      updFile db1 file_id (fun fm =>
        { fm with embedding_status := "skipped"
                  embedding_error := some "No text content to embed" })
    else
      let docs := buildDocsAux embedBatch file_id chunks 0
      if docs ≠ [] then
        let db2 : Db :=
          { db1 with embeddings :=
              (db1.embeddings.filter (fun d => d.file_id ≠ file_id)) ++ docs }
        updFile db2 file_id (fun fm =>
          { embedding_status := "completed"
            embedding_count := some docs.length
            embedding_error := none })
      else
        updFile db1 file_id (fun fm =>
          { fm with embedding_status := "failed"
                    embedding_error :=
                      some "Embedding generation returned empty results" })

/-! ## Reindex worker — `reindex_embeddings.run_reindex`
(server.py lines 744-768)

The per-file body (lines 749-758: `process_file_embeddings` or the
skipped-status update, both awaited external work) is abstracted as
`step : FileRec → Except String Unit`; `Except.error e` models a raised
exception with text `e`. -/

/-- A candidate file as fetched by the reindex query (line 727-730). -/
structure FileRec where
  id : String
  original_filename : String
  content_text : List Char
  tags : List (List Char)
deriving DecidableEq

/-- The in-memory `reindex_tasks[task_id]` record. -/
structure TaskState where
  status : String
  processed : Nat
  total : Nat
  errors : List String
  current_file : String
deriving DecidableEq

/-- The `for i, f in enumerate(files)` loop (lines 746-762), followed by
the completion updates (lines 764-765). -/
def runReindexLoop (step : FileRec → Except String Unit) (i : Nat)
    (files : List FileRec) (t : TaskState) : TaskState :=
  match files with
  | [] => { t with status := "completed", current_file := "" }
  | f :: rest =>
    let t1 := { t with current_file := f.original_filename }
    match step f with
    | Except.ok _ =>
      runReindexLoop step (i + 1) rest { t1 with processed := i + 1 }
    | Except.error e =>
      runReindexLoop step (i + 1) rest
        { t1 with
          errors := t1.errors ++ [f.original_filename ++ ": " ++ e]
          processed := i + 1 }

/-- `run_reindex` for a candidate set, starting from the task record
created at lines 736-742. -/
def run_reindex (files : List FileRec)
    (step : FileRec → Except String Unit) : TaskState :=
  runReindexLoop step 0 files
    { status := "running", processed := 0, total := files.length
      errors := [], current_file := "" }

/-! ## Predicates and oracles referenced by the theorems -/

/-- The formatted error string the worker appends for a failing file. -/
def reindexErrorOf (step : FileRec → Except String Unit) (f : FileRec) :
    Option String :=
  match step f with
  | Except.error e => some (f.original_filename ++ ": " ++ e)
  | Except.ok _ => none

/-- A candidate record the ranker's loop actually uses: non-empty vector of
the query's dimensionality with non-zero norm. -/
def validCand (qemb : List ℚ) (e : EmbDoc) : Bool :=
  decide (e.embedding ≠ []) && decide (e.embedding.length = qemb.length)
    && decide (0 < normSq e.embedding)

/-- An entry's recorded semantic similarity, when present, passed the
hybrid semantic arm's floor. -/
def SemOk (e : SearchEntry) : Prop :=
  ∀ s, e.semantic_similarity = some s → 1/2 ≤ s

/-- `dotP q v / 2` equals the source's float cosine similarity
`np.dot(q,v)/(‖q‖·‖v‖)` exactly on the counterexample inputs below, where
`‖[1,0,0,0]‖ = 1` and `‖[1,1,1,1]‖ = 2` — both norms and the division are
exact in binary floating point as well. -/
def simCosEx : List ℚ → List ℚ → ℚ := fun q v => dotP q v / 2

/-! ## Theorems

General lemmas first, then the claim theorems (C1-C10), each with its
witness or counterexample. -/

theorem mem_insertDescBy (key : α → ℚ) (x : α) (l : List α) (a : α)
    (h : a ∈ insertDescBy key x l) : a = x ∨ a ∈ l := by
  induction l with
  | nil => simpa [insertDescBy] using h
  | cons y ys ih =>
    simp only [insertDescBy] at h
    by_cases hk : key x < key y
    · simp only [hk, if_pos, List.mem_cons] at h
      rcases h with h | h
      · exact Or.inr (by simp [h])
      · rcases ih h with h1 | h1
        · exact Or.inl h1
        · exact Or.inr (by simp [h1])
    · simp only [hk, if_neg, not_false_iff, List.mem_cons] at h
      rcases h with h | h | h
      · exact Or.inl h
      · exact Or.inr (by simp [h])
      · exact Or.inr (by simp [h])

theorem mem_sortDescBy (key : α → ℚ) (l : List α) (a : α)
    (h : a ∈ sortDescBy key l) : a ∈ l := by
  induction l with
  | nil => simp [sortDescBy] at h
  | cons x xs ih =>
    simp only [sortDescBy] at h
    rcases mem_insertDescBy key x (sortDescBy key xs) a h with h1 | h1
    · simp [h1]
    · simp [ih h1]

theorem pairwise_insertDescBy (key : α → ℚ) (x : α) (l : List α)
    (h : l.Pairwise (fun a b => key b ≤ key a)) :
    (insertDescBy key x l).Pairwise (fun a b => key b ≤ key a) := by
  induction l with
  | nil => simp [insertDescBy]
  | cons y ys ih =>
    rcases List.pairwise_cons.mp h with ⟨hy, hys⟩
    by_cases hk : key x < key y
    · have htail := ih hys
      simp only [insertDescBy, hk, if_pos]
      refine List.pairwise_cons.mpr ⟨?_, htail⟩
      intro b hb
      rcases mem_insertDescBy key x ys b hb with hb1 | hb1
      · exact hb1 ▸ le_of_lt hk
      · exact hy b hb1
    · simp only [insertDescBy, hk, if_neg, not_false_iff]
      refine List.pairwise_cons.mpr ⟨?_, h⟩
      intro b hb
      rcases List.mem_cons.mp hb with hb1 | hb1
      · exact hb1 ▸ le_of_not_lt hk
      · exact le_trans (hy b hb1) (le_of_not_lt hk)

theorem pairwise_sortDescBy (key : α → ℚ) (l : List α) :
    (sortDescBy key l).Pairwise (fun a b => key b ≤ key a) := by
  induction l with
  | nil => simp [sortDescBy]
  | cons x xs ih => exact pairwise_insertDescBy key x (sortDescBy key xs) ih

theorem chunkTextAux_isSome (csize overlap : Nat) (hco : overlap < csize)
    (text : List Char) :
    ∀ fuel start, text.length - start < fuel →
      (chunkTextAux fuel text csize overlap start).isSome := by
  intro fuel
  induction fuel with
  | zero => intro start h; omega
  | succ fuel ih =>
    intro start h
    by_cases hs : start < text.length
    · have hadv : 1 ≤ csize - overlap := by omega
      have hrec : text.length - (start + (csize - overlap)) < fuel := by omega
      have := ih (start + (csize - overlap)) hrec
      simp only [chunkTextAux, hs, if_pos]
      rcases hopt : chunkTextAux fuel text csize overlap (start + (csize - overlap)) with _ | rest
      · rw [hopt] at this; simp at this
      · simp
    · simp [chunkTextAux, hs]

theorem rawWindowsAux_isSome (csize overlap : Nat) (hco : overlap < csize)
    (text : List Char) :
    ∀ fuel start, text.length - start < fuel →
      (rawWindowsAux fuel text csize overlap start).isSome := by
  intro fuel
  induction fuel with
  | zero => intro start h; omega
  | succ fuel ih =>
    intro start h
    by_cases hs : start < text.length
    · have hrec : text.length - (start + (csize - overlap)) < fuel := by omega
      have := ih (start + (csize - overlap)) hrec
      simp only [rawWindowsAux, hs, if_pos]
      rcases hopt : rawWindowsAux fuel text csize overlap (start + (csize - overlap)) with _ | rest
      · rw [hopt] at this; simp at this
      · simp
    · simp [rawWindowsAux, hs]

/-- The chunks actually emitted are exactly the raw windows, each stripped,
with the empty ones discarded (the `if chunk.strip()` filter). -/
theorem chunkTextAux_eq_windows (text : List Char) (csize overlap : Nat) :
    ∀ fuel start,
      chunkTextAux fuel text csize overlap start =
        (rawWindowsAux fuel text csize overlap start).map
          (fun ws => (ws.map pyStrip).filter (fun c => decide (c ≠ []))) := by
  intro fuel
  induction fuel with
  | zero => intro start; rfl
  | succ fuel ih =>
    intro start
    by_cases hs : start < text.length
    · simp only [chunkTextAux, rawWindowsAux, hs, if_pos]
      rw [ih (start + (csize - overlap))]
      rcases hopt : rawWindowsAux fuel text csize overlap (start + (csize - overlap)) with _ | rest
      · rfl
      · simp only [Option.map_some]
        by_cases hne : pyStrip ((text.drop start).take csize) ≠ []
        · simp [hne, List.filter_cons]
        · simp only [not_not] at hne
          simp [hne, List.filter_cons]
    · simp [chunkTextAux, rawWindowsAux, hs]

theorem rawWindows_dropJoin (text : List Char) (csize overlap : Nat)
    (hco : overlap < csize) :
    ∀ fuel start ws, rawWindowsAux fuel text csize overlap start = some ws →
      (ws.map (fun x => x.drop overlap)).flatten = text.drop (start + overlap) := by
  intro fuel
  induction fuel with
  | zero => intro start ws h; simp [rawWindowsAux] at h
  | succ fuel ih =>
    intro start ws h
    by_cases hs : start < text.length
    · simp only [rawWindowsAux, hs, if_pos] at h
      rcases hopt : rawWindowsAux fuel text csize overlap (start + (csize - overlap)) with _ | rest
      · rw [hopt] at h; simp at h
      · rw [hopt] at h
        simp only [Option.some.injEq] at h
        subst h
        have hrest := ih (start + (csize - overlap)) rest hopt
        simp only [List.map_cons, List.flatten_cons]
        rw [hrest]
        have h1 : ((text.drop start).take csize).drop overlap
            = (text.drop (start + overlap)).take (csize - overlap) := by
          rw [List.drop_take, List.drop_drop]
        have h2 : start + (csize - overlap) + overlap = start + overlap + (csize - overlap) := by
          omega
        have h3 : text.drop (start + overlap + (csize - overlap))
            = (text.drop (start + overlap)).drop (csize - overlap) := by
          rw [List.drop_drop, Nat.add_comm]
        rw [h1, h2, h3, List.take_append_drop]
    · simp only [rawWindowsAux, hs, if_neg, not_false_iff, Option.some.injEq] at h
      subst h
      simp only [List.map_nil, List.flatten_nil]
      have : text.length ≤ start + overlap := by omega
      exact (List.drop_eq_nil_of_le this).symm

theorem rawWindows_cover (text : List Char) (csize overlap : Nat)
    (hco : overlap < csize) :
    ∀ fuel start ws, rawWindowsAux fuel text csize overlap start = some ws →
      joinWithOverlapRemoved overlap ws = text.drop start := by
  intro fuel start ws h
  match fuel, ws with
  | 0, _ => simp [rawWindowsAux] at h
  | fuel + 1, [] =>
    by_cases hs : start < text.length
    · simp only [rawWindowsAux, hs, if_pos] at h
      rcases hopt : rawWindowsAux fuel text csize overlap (start + (csize - overlap)) with _ | rest
      · rw [hopt] at h; simp at h
      · rw [hopt] at h; simp at h
    · simp only [joinWithOverlapRemoved]
      exact (List.drop_eq_nil_of_le (by omega)).symm
  | fuel + 1, w :: rest =>
    by_cases hs : start < text.length
    · simp only [rawWindowsAux, hs, if_pos] at h
      rcases hopt : rawWindowsAux fuel text csize overlap (start + (csize - overlap)) with _ | rest2
      · rw [hopt] at h; simp at h
      · rw [hopt] at h
        simp only [Option.some.injEq, List.cons.injEq] at h
        obtain ⟨hw, hrest⟩ := h
        subst hw; subst hrest
        simp only [joinWithOverlapRemoved]
        rw [rawWindows_dropJoin text csize overlap hco fuel _ _ hopt]
        have h2 : start + (csize - overlap) + overlap = start + csize := by omega
        rw [h2]
        have h3 : text.drop (start + csize) = (text.drop start).drop csize := by
          rw [List.drop_drop, Nat.add_comm]
        rw [h3, List.take_append_drop]
    · simp [rawWindowsAux, hs] at h

theorem runReindexLoop_spec (step : FileRec → Except String Unit) :
    ∀ (files : List FileRec) (i : Nat) (t : TaskState),
      (runReindexLoop step i files t).status = "completed" ∧
      (runReindexLoop step i files t).current_file = "" ∧
      (runReindexLoop step i files t).processed =
        (if files = [] then t.processed else i + files.length) ∧
      (runReindexLoop step i files t).errors =
        t.errors ++ files.filterMap (reindexErrorOf step) := by
  intro files
  induction files with
  | nil => intro i t; simp [runReindexLoop]
  | cons f rest ih =>
    intro i t
    simp only [runReindexLoop]
    rcases hstep : step f with e | u
    · obtain ⟨h1, h2, h3, h4⟩ :=
        ih (i + 1)
          { t with
            current_file := f.original_filename
            errors := t.errors ++ [f.original_filename ++ ": " ++ e]
            processed := i + 1 }
      refine ⟨h1, h2, ?_, ?_⟩
      · rw [h3]
        by_cases hr : rest = [] <;> simp [hr, List.length_cons] <;> omega
      · rw [h4]
        simp [List.filterMap_cons, reindexErrorOf, hstep]
    · obtain ⟨h1, h2, h3, h4⟩ :=
        ih (i + 1)
          { t with current_file := f.original_filename, processed := i + 1 }
      refine ⟨h1, h2, ?_, ?_⟩
      · rw [h3]
        by_cases hr : rest = [] <;> simp [hr, List.length_cons] <;> omega
      · rw [h4]
        simp [List.filterMap_cons, reindexErrorOf, hstep]

/-- C6: for every reindex run over a candidate set of N files in which some
files raise exceptions during embedding, the worker never aborts the loop:
each per-file exception is appended as a formatted error string
(`"<filename>: <error>"`, in file order) to the task's error list, the
processed count still reaches N, the final task status is `completed`, and
the current-filename field is cleared. -/
theorem reindex_resilience (files : List FileRec)
    (step : FileRec → Except String Unit) :
    (run_reindex files step).processed = files.length ∧
    (run_reindex files step).status = "completed" ∧
    (run_reindex files step).current_file = "" ∧
    (run_reindex files step).errors = files.filterMap (reindexErrorOf step) := by
  obtain ⟨h1, h2, h3, h4⟩ :=
    runReindexLoop_spec step files 0
      { status := "running", processed := 0, total := files.length
        errors := [], current_file := "" }
  refine ⟨?_, h1, h2, by simpa using h4⟩
  rw [show run_reindex files step = runReindexLoop step 0 files
    { status := "running", processed := 0, total := files.length
      errors := [], current_file := "" } from rfl, h3]
  by_cases hf : files = [] <;> simp [hf]

/-- C2 (code bug): `chunk_text` has no guard for `chunk_size ≤ overlap`.
With `chunk_size = overlap = 200` the advance step is `0`, so on any
non-empty text (here `"ab"`) the `while` loop never terminates: the loop
body does not finish within any amount of fuel.  The spec requires this
configuration to fail fast with a configuration error instead. -/
theorem chunk_text_no_guard_loops_forever :
    ∀ (text : List Char) (csize start : Nat), start < text.length →
      ∀ fuel, chunkTextAux fuel text csize csize start = none := by
  intro text csize start hs fuel
  induction fuel with
  | zero => rfl
  | succ fuel ih =>
    simp only [chunkTextAux, hs, if_pos]
    have hadv : start + (csize - csize) = start := by omega
    rw [hadv, ih]

/-- Witness for C2's theorem: the loop state for `chunk_text("ab", 200, 200)`
never terminates within 1000 iterations. -/
theorem chunk_text_no_guard_loops_forever_witness :
    chunkTextAux 1000 (strL "ab") 200 200 0 = none :=
  chunk_text_no_guard_loops_forever (strL "ab") 200 0 (by decide) 1000

/-- C9: for every text `T` and every chunk size `C > overlap O ≥ 0`, the raw
windows of `chunk(T, C, O)` reconstruct the original text exactly when
concatenated with each subsequent window's leading `O` characters removed,
and the returned chunks are exactly those windows stripped of surrounding
whitespace with empty ones discarded (so the reconstruction holds up to the
whitespace stripped at chunk boundaries). -/
theorem chunking_coverage (text : List Char) (csize overlap : Nat)
    (hco : overlap < csize) :
    joinWithOverlapRemoved overlap (rawWindows text csize overlap) = text ∧
    chunk_text text csize overlap =
      ((rawWindows text csize overlap).map pyStrip).filter
        (fun c => decide (c ≠ [])) := by
  have hsome := rawWindowsAux_isSome csize overlap hco text (text.length + 1) 0
    (by omega)
  rcases hws : rawWindowsAux (text.length + 1) text csize overlap 0 with _ | ws
  · rw [hws] at hsome; simp at hsome
  · have hraw : rawWindows text csize overlap = ws := by
      simp [rawWindows, hws]
    constructor
    · rw [hraw]
      have := rawWindows_cover text csize overlap hco (text.length + 1) 0 ws hws
      simpa using this
    · rw [hraw]
      have heq := chunkTextAux_eq_windows text csize overlap (text.length + 1) 0
      rw [hws] at heq
      simp [chunk_text, heq]

/-- Witness for C9 at `T = "abcdef"`, `C = 3`, `O = 1`. -/
theorem chunking_coverage_witness :
    joinWithOverlapRemoved 1 (rawWindows (strL "abcdef") 3 1) = strL "abcdef" ∧
    chunk_text (strL "abcdef") 3 1 =
      ((rawWindows (strL "abcdef") 3 1).map pyStrip).filter
        (fun c => decide (c ≠ [])) :=
  chunking_coverage (strL "abcdef") 3 1 (by decide)

theorem ragSourcesLoop_nodup (resolve : String → Option FileDoc) :
    ∀ (chunks : List RankedChunk) (seen : List String),
      ((ragSourcesLoop resolve chunks seen).map (fun s => s.file_id)).Nodup ∧
      ∀ s ∈ ragSourcesLoop resolve chunks seen, s.file_id ∉ seen := by
  intro chunks
  induction chunks with
  | nil => intro seen; simp [ragSourcesLoop]
  | cons c rest ih =>
    intro seen
    simp only [ragSourcesLoop]
    rcases hr : resolve c.file_id with _ | fd
    · exact ih seen
    · by_cases hseen : fd.id.getD c.file_id ∈ seen
      · simp only [hseen, if_pos]
        exact ih seen
      · simp only [hseen, if_neg, not_false_iff]
        obtain ⟨ihnd, ihseen⟩ := ih (fd.id.getD c.file_id :: seen)
        refine ⟨?_, ?_⟩
        · simp only [List.map_cons, List.nodup_cons]
          refine ⟨?_, ihnd⟩
          intro hmem
          rcases List.mem_map.mp hmem with ⟨s, hs, hid⟩
          exact (ihseen s hs) (hid ▸ List.mem_cons_self _ _)
        · intro s hs
          rcases List.mem_cons.mp hs with hs1 | hs1
          · subst hs1; exact hseen
          · intro hcon
            exact (ihseen s hs1) (List.mem_cons_of_mem _ hcon)

theorem projSourcesLoop_nodup (resolve : String → Option FileDoc) :
    ∀ (chunks : List RankedChunk) (seen : List String),
      ((projSourcesLoop resolve chunks seen).map (fun s => s.file_id)).Nodup ∧
      ∀ s ∈ projSourcesLoop resolve chunks seen, s.file_id ∉ seen := by
  intro chunks
  induction chunks with
  | nil => intro seen; simp [projSourcesLoop]
  | cons c rest ih =>
    intro seen
    simp only [projSourcesLoop]
    rcases hr : resolve c.file_id with _ | fd
    · exact ih seen
    · by_cases hseen : c.file_id ∈ seen
      · simp only [hseen, if_pos]
        exact ih seen
      · simp only [hseen, if_neg, not_false_iff]
        obtain ⟨ihnd, ihseen⟩ := ih (c.file_id :: seen)
        refine ⟨?_, ?_⟩
        · simp only [List.map_cons, List.nodup_cons]
          refine ⟨?_, ihnd⟩
          intro hmem
          rcases List.mem_map.mp hmem with ⟨s, hs, hid⟩
          exact (ihseen s hs) (hid ▸ List.mem_cons_self _ _)
        · intro s hs
          rcases List.mem_cons.mp hs with hs1 | hs1
          · subst hs1; exact hseen
          · intro hcon
            exact (ihseen s hs1) (List.mem_cons_of_mem _ hcon)

/-- C1: for every call to the RAG context assembler — the archive-wide
`get_rag_context` or the project-scoped `get_project_rag_context` — the
returned sources list never contains two entries with the same file
identifier: whatever the ranked chunks, the priority list, and the state of
the file store, the file ids of the sources are pairwise distinct. -/
theorem sources_dedup (client : Bool) (sim : List ℚ → List ℚ → ℚ)
    (qemb : List ℚ) (embs : List EmbDoc) (priority : List String)
    (file_ids : List String) (resolve : String → Option FileDoc) :
    ((get_rag_sources client sim qemb embs priority resolve).map
      (fun s => s.file_id)).Nodup ∧
    ((get_project_rag_sources client sim qemb file_ids embs resolve).map
      (fun s => s.file_id)).Nodup := by
  constructor
  · show ((get_rag_sources client sim qemb embs priority resolve).map
      (fun s => s.file_id)).Nodup
    unfold get_rag_sources
    by_cases hrel : find_relevant_content client sim qemb embs 8 = []
    · simp [hrel]
    · simp only [hrel, if_neg, not_false_iff]
      exact (ragSourcesLoop_nodup resolve _ []).1
  · unfold get_project_rag_sources
    by_cases h1 : ¬client = true ∨ file_ids = []
    · rw [if_pos h1]; simp
    · rw [if_neg h1]
      by_cases h2 : qemb = []
      · rw [if_pos h2]; simp
      · rw [if_neg h2]
        by_cases h3 : embs = []
        · rw [if_pos h3]; simp
        · rw [if_neg h3]
          by_cases h4 : normSq qemb = 0
          · rw [if_pos h4]; simp
          · rw [if_neg h4]
            exact (projSourcesLoop_nodup resolve _ []).1

/-- C8: in the archive-wide RAG path, a ranked chunk of a caller-supplied
priority file gets exactly `+0.15` added to its similarity, capped at
`1.0`; other chunks are untouched; with a non-empty priority list the chunk
list is then re-sorted descending by similarity and the top 5 are taken. -/
theorem priority_boost (priority : List String) (c : RankedChunk)
    (relevant : List RankedChunk) :
    (c.file_id ∈ priority →
      (ragBoost priority c).similarity = min 1 (c.similarity + 3/20)) ∧
    (c.file_id ∉ priority → ragBoost priority c = c) ∧
    (priority ≠ [] →
      ragTopChunks relevant priority =
        (sortDescBy (fun r : RankedChunk => r.similarity)
          (relevant.map (ragBoost priority))).take 5) ∧
    (ragTopChunks relevant priority).length ≤ 5 ∧
    (priority ≠ [] →
      (ragTopChunks relevant priority).Pairwise
        (fun a b => b.similarity ≤ a.similarity)) := by
  refine ⟨?_, ?_, ?_, ?_, ?_⟩
  · intro hmem; simp [ragBoost, hmem]
  · intro hmem; simp [ragBoost, hmem]
  · intro hp; simp [ragTopChunks, hp]
  · exact List.length_take_le 5 _
  · intro hp
    simp only [ragTopChunks, hp, if_pos, ne_eq, not_false_iff]
    exact List.Pairwise.sublist (List.take_sublist 5 _)
      (pairwise_sortDescBy (fun r : RankedChunk => r.similarity) _)

/-- Witness for C8: boosting a priority chunk of similarity `0.95` gives
`min 1 (0.95 + 0.15)`, which is exactly `1`, not `1.1`. -/
theorem priority_boost_witness :
    (ragBoost ["f1"] ⟨"f1", [], 0, 19/20⟩).similarity = min 1 (19/20 + 3/20) ∧
    min 1 ((19:ℚ)/20 + 3/20) = 1 :=
  ⟨(priority_boost ["f1"] ⟨"f1", [], 0, 19/20⟩ []).1 (by decide), by norm_num⟩

theorem collectResults_filter (sim : List ℚ → List ℚ → ℚ) (qemb : List ℚ) :
    ∀ embs, collectResults sim qemb embs =
      collectResults sim qemb (embs.filter (validCand qemb)) := by
  intro embs
  induction embs with
  | nil => rfl
  | cons e es ih =>
    by_cases h1 : e.embedding ≠ [] ∧ e.embedding.length = qemb.length
    · by_cases h2 : 0 < normSq e.embedding
      · have hv : validCand qemb e = true := by
          simp [validCand, h1.1, h1.2, h2]
        rw [List.filter_cons_of_pos hv]
        simp only [collectResults, if_pos h1, if_pos h2]
        rw [ih]
      · have hv : validCand qemb e = false := by
          simp [validCand, h2]
        rw [List.filter_cons_of_neg (by simp [hv])]
        simp only [collectResults, if_pos h1, if_neg h2]
        exact ih
    · have hv : validCand qemb e = false := by
        rcases not_and_or.mp h1 with h | h
        · simp only [not_not] at h
          simp [validCand, h]
        · simp [validCand, h]
      rw [List.filter_cons_of_neg (by simp [hv])]
      simp only [collectResults, if_neg h1]
      exact ih

/-- C7: a query embedding of zero norm makes both the archive-wide ranker
and the project-scoped assembler return no results (the division by
`‖Q‖·‖V‖` is never reached), and candidates with an empty vector, a
mismatched dimensionality or a zero norm are skipped exactly as if they had
been filtered out beforehand — never an error. -/
theorem zero_norm_and_skip (client : Bool) (sim : List ℚ → List ℚ → ℚ)
    (qemb : List ℚ) (embs : List EmbDoc) (limit : Nat)
    (file_ids : List String) (resolve : String → Option FileDoc) :
    (normSq qemb = 0 → find_relevant_content client sim qemb embs limit = []) ∧
    (normSq qemb = 0 →
      get_project_rag_sources client sim qemb file_ids embs resolve = []) ∧
    collectResults sim qemb embs =
      collectResults sim qemb (embs.filter (validCand qemb)) := by
  refine ⟨?_, ?_, collectResults_filter sim qemb embs⟩
  · intro h0
    unfold find_relevant_content
    by_cases hc : ¬client = true
    · rw [if_pos hc]
    · rw [if_neg hc]
      by_cases hq : qemb = []
      · rw [if_pos hq]
      · rw [if_neg hq]
        by_cases he : embs = []
        · rw [if_pos he]
        · rw [if_neg he, if_pos h0]
  · intro h0
    unfold get_project_rag_sources
    by_cases h1 : ¬client = true ∨ file_ids = []
    · rw [if_pos h1]
    · rw [if_neg h1]
      by_cases hq : qemb = []
      · rw [if_pos hq]
      · rw [if_neg hq]
        by_cases he : embs = []
        · rw [if_pos he]
        · rw [if_neg he, if_pos h0]

/-- Witness for C7: a zero query vector yields no results even though a
valid candidate exists. -/
theorem zero_norm_and_skip_witness :
    find_relevant_content true (fun a b => dotP a b) [0, 0]
      [⟨"e1", "f1", 0, strL "t", [1, 1]⟩] 5 = [] :=
  (zero_norm_and_skip true (fun a b => dotP a b) [0, 0]
    [⟨"e1", "f1", 0, strL "t", [1, 1]⟩] 5 [] (fun _ => none)).1
    (by norm_num [normSq])

theorem collect_sim_gt (sim : List ℚ → List ℚ → ℚ) (qemb : List ℚ) :
    ∀ embs r, r ∈ collectResults sim qemb embs → 3/10 < r.similarity := by
  intro embs
  induction embs with
  | nil => intro r hr; simp [collectResults] at hr
  | cons e es ih =>
    intro r hr
    simp only [collectResults] at hr
    by_cases h1 : e.embedding ≠ [] ∧ e.embedding.length = qemb.length
    · rw [if_pos h1] at hr
      by_cases h2 : 0 < normSq e.embedding
      · rw [if_pos h2] at hr
        by_cases h3 : 3/10 < sim qemb e.embedding
        · rw [if_pos h3] at hr
          rcases List.mem_cons.mp hr with hr1 | hr1
          · subst hr1; exact h3
          · exact ih r hr1
        · rw [if_neg h3] at hr; exact ih r hr
      · rw [if_neg h2] at hr; exact ih r hr
    · rw [if_neg h1] at hr; exact ih r hr

theorem find_relevant_content_cases (client : Bool)
    (sim : List ℚ → List ℚ → ℚ) (qemb : List ℚ) (embs : List EmbDoc)
    (limit : Nat) :
    find_relevant_content client sim qemb embs limit = [] ∨
    find_relevant_content client sim qemb embs limit =
      rankCandidates sim qemb embs limit := by
  unfold find_relevant_content
  by_cases hc : ¬client = true
  · rw [if_pos hc]; exact Or.inl rfl
  · rw [if_neg hc]
    by_cases hq : qemb = []
    · rw [if_pos hq]; exact Or.inl rfl
    · rw [if_neg hq]
      by_cases he : embs = []
      · rw [if_pos he]; exact Or.inl rfl
      · rw [if_neg he]
        by_cases h0 : normSq qemb = 0
        · rw [if_pos h0]; exact Or.inl rfl
        · rw [if_neg h0]; exact Or.inr rfl

theorem mem_setA (m : List (String × β)) (k : String) (v : β) :
    ∀ p ∈ setA m k v, p = (k, v) ∨ p ∈ m := by
  induction m with
  | nil => intro p hp; simp [setA] at hp; simp [hp]
  | cons q rest ih =>
    intro p hp
    rcases q with ⟨k1, v1⟩
    simp only [setA] at hp
    by_cases hk : k1 = k
    · rw [if_pos hk] at hp
      rcases List.mem_cons.mp hp with h | h
      · exact Or.inl h
      · exact Or.inr (List.mem_cons_of_mem _ h)
    · rw [if_neg hk] at hp
      rcases List.mem_cons.mp hp with h | h
      · exact Or.inr (h ▸ List.mem_cons_self _ _)
      · rcases ih p h with h1 | h1
        · exact Or.inl h1
        · exact Or.inr (List.mem_cons_of_mem _ h1)

theorem lookupA_mem (m : List (String × β)) (k : String) (v : β)
    (h : lookupA m k = some v) : (k, v) ∈ m := by
  unfold lookupA at h
  rcases hf : m.find? (fun p => p.1 = k) with _ | p
  · rw [hf] at h; simp at h
  · rw [hf] at h
    have h2 : p.2 = v := by simpa using h
    have hmem := List.mem_of_find?_eq_some hf
    have hcond := List.find?_some hf
    simp only [decide_eq_true_eq] at hcond
    have : p = (k, v) := by
      rcases p with ⟨pk, pv⟩
      simp only at hcond h2
      simp [hcond, h2]
    exact this ▸ hmem

theorem keywordPhase_semOk :
    ∀ (kw : List (String × ℚ)) (i : Nat) (m : List (String × SearchEntry)),
      (∀ p ∈ m, SemOk p.2) → ∀ p ∈ keywordPhase i kw m, SemOk p.2 := by
  intro kw
  induction kw with
  | nil => intro i m hm; exact hm
  | cons q rest ih =>
    intro i m hm
    rcases q with ⟨fid, score⟩
    simp only [keywordPhase]
    by_cases hs : score < 2
    · rw [if_pos hs]; exact ih (i + 1) m hm
    · rw [if_neg hs]
      refine ih (i + 1) _ ?_
      intro p hp
      rcases mem_setA m fid _ p hp with h | h
      · subst h
        intro s hsome
        simp at hsome
      · exact hm p h

theorem semanticPhase_semOk (resolve : String → Option FileDoc)
    (tf : Option String) :
    ∀ (pairs : List (String × ℚ)) (m : List (String × SearchEntry)),
      (∀ p ∈ m, SemOk p.2) → ∀ p ∈ semanticPhase resolve tf pairs m, SemOk p.2 := by
  intro pairs
  induction pairs with
  | nil => intro m hm; exact hm
  | cons q rest ih =>
    intro m hm
    rcases q with ⟨fid, s⟩
    simp only [semanticPhase]
    by_cases hs : s < 1/2
    · rw [if_pos hs]; exact ih m hm
    · rw [if_neg hs]
      rcases hl : lookupA m fid with _ | e

      · rcases hr : resolve fid with _ | fd
        · exact ih m hm
        · show ∀ p ∈ (if typeSkip tf fd = true
              then semanticPhase resolve tf rest m
              else semanticPhase resolve tf rest
                (setA m fid ⟨s, ["semantic"], none, none, some s⟩)),
            SemOk p.2
          by_cases ht : typeSkip tf fd = true
          · rw [if_pos ht]; exact ih m hm
          · rw [if_neg ht]
            refine ih _ ?_
            intro p hp
            rcases mem_setA m fid _ p hp with h | h
            · subst h
              intro s2 hsome
              simp only [Option.some.injEq] at hsome
              subst hsome
              exact le_of_not_lt hs
            · exact hm p h
      · refine ih _ ?_
        intro p hp
        rcases mem_setA m fid _ p hp with h | h
        · subst h
          intro s2 hsome
          simp only [Option.some.injEq] at hsome
          subst hsome
          exact le_of_not_lt hs
        · exact hm p h

/-- C3 (amended): the ranker of the RAG path never returns an entry with
cosine similarity `≤ 0.3`; results are sorted descending by similarity and
truncated to the caller-specified limit; the hybrid search semantic arm
never includes a file whose recorded best-chunk similarity is `< 0.5`
(exactly `0.5` does pass the `if similarity < 0.5: continue` filter, see
the counterexample). -/
theorem threshold_filter (client : Bool) (sim : List ℚ → List ℚ → ℚ)
    (qemb : List ℚ) (embs : List EmbDoc) (limit : Nat)
    (kw : List (String × ℚ)) (resolve : String → Option FileDoc)
    (tf : Option String) :
    (∀ r ∈ find_relevant_content client sim qemb embs limit,
      3/10 < r.similarity) ∧
    (find_relevant_content client sim qemb embs limit).Pairwise
      (fun a b => b.similarity ≤ a.similarity) ∧
    (find_relevant_content client sim qemb embs limit).length ≤ limit ∧
    (∀ fid e s,
      lookupA (smartSearchMap client sim qemb embs kw resolve tf) fid = some e →
      e.semantic_similarity = some s → 1/2 ≤ s) := by
  refine ⟨?_, ?_, ?_, ?_⟩
  · intro r hr
    rcases find_relevant_content_cases client sim qemb embs limit with h | h
    · rw [h] at hr; simp at hr
    · rw [h] at hr
      unfold rankCandidates at hr
      have h1 := (List.take_sublist limit _).subset hr
      exact collect_sim_gt sim qemb embs r (mem_sortDescBy _ _ r h1)
  · rcases find_relevant_content_cases client sim qemb embs limit with h | h
    · rw [h]; exact List.Pairwise.nil
    · rw [h]
      exact List.Pairwise.sublist (List.take_sublist limit _)
        (pairwise_sortDescBy (fun r : RankedChunk => r.similarity) _)
  · rcases find_relevant_content_cases client sim qemb embs limit with h | h
    · rw [h]; simp
    · rw [h]; exact List.length_take_le limit _
  · intro fid e s hl hsome
    have hmem := lookupA_mem _ _ _ hl
    unfold smartSearchMap at hmem
    by_cases hc : client = true
    · rw [if_pos hc] at hmem
      have hkw : ∀ p ∈ keywordPhase 0 kw ([] : List (String × SearchEntry)),
          SemOk p.2 :=
        keywordPhase_semOk kw 0 [] (by simp)
      have := semanticPhase_semOk resolve tf _ _ hkw (fid, e) hmem
      exact this s hsome
    · rw [if_neg hc] at hmem
      exact keywordPhase_semOk kw 0 [] (by simp) (fid, e) hmem s hsome

/-- Witness for C3's amended theorem: a concrete run whose single returned
chunk has similarity `0.7 > 0.3`. -/
theorem threshold_filter_witness :
    3/10 < (⟨"f1", strL "t", 0, (7:ℚ)/10⟩ : RankedChunk).similarity :=
  (threshold_filter true (fun _ _ => 7/10) [1]
    [⟨"e1", "f1", 0, strL "t", [1]⟩] 5 [] (fun _ => none) none).1
    ⟨"f1", strL "t", 0, (7:ℚ)/10⟩
    (by
      norm_num [find_relevant_content, rankCandidates, collectResults,
        normSq, sortDescBy, insertDescBy])

/-- Counterexample to C3 as stated: a file whose best chunk similarity is
exactly `0.5` — not `> 0.5` — is included by the hybrid semantic arm,
because the code skips only `similarity < 0.5`.  The claim says similarity
`≤ 0.5` is never included. -/
theorem hybrid_threshold_boundary_counterexample :
    lookupA
      (smartSearchMap true simCosEx [1, 0, 0, 0]
        [⟨"e1", "f1", 0, strL "t", [1, 1, 1, 1]⟩] []
        (fun _ => some ⟨some "a", some "document", some "f1"⟩) none) "f1"
      = some ⟨1/2, ["semantic"], none, none, some (1/2)⟩ ∧
    ((1:ℚ)/2 ≤ 1/2) := by
  constructor
  · norm_num [smartSearchMap, keywordPhase, semanticPhase, bestSims,
      find_relevant_content, rankCandidates, collectResults, normSq,
      simCosEx, dotP, sortDescBy, insertDescBy, lookupA, setA, typeSkip,
      List.find?]
  · exact le_refl _

theorem lookupA_setA_self (m : List (String × β)) (k : String) (v : β) :
    lookupA (setA m k v) k = some v := by
  induction m with
  | nil => simp [setA, lookupA, List.find?]
  | cons q rest ih =>
    rcases q with ⟨k1, v1⟩
    simp only [setA]
    by_cases hk : k1 = k
    · rw [if_pos hk]
      simp [lookupA, List.find?]
    · rw [if_neg hk]
      unfold lookupA
      rw [List.find?_cons_of_neg _ (by simp [hk])]
      exact ih

theorem lookupA_setA_ne (m : List (String × β)) (k k2 : String) (v : β)
    (h : k ≠ k2) : lookupA (setA m k v) k2 = lookupA m k2 := by
  induction m with
  | nil =>
    unfold setA lookupA
    rw [List.find?_cons_of_neg _ (by simp [h])]
  | cons q rest ih =>
    rcases q with ⟨k1, v1⟩
    simp only [setA]
    by_cases hk : k1 = k
    · rw [if_pos hk]
      unfold lookupA
      rw [List.find?_cons_of_neg _ (by simp [h]),
        List.find?_cons_of_neg _ (by simp [hk, h])]
    · rw [if_neg hk]
      by_cases hk2 : k1 = k2
      · unfold lookupA
        rw [List.find?_cons_of_pos _ (by simp [hk2]),
          List.find?_cons_of_pos _ (by simp [hk2])]
      · unfold lookupA
        rw [List.find?_cons_of_neg _ (by simp [hk2]),
          List.find?_cons_of_neg _ (by simp [hk2])]
        exact ih

theorem keywordPhase_pres (fid : String) :
    ∀ (kw : List (String × ℚ)) (i : Nat) (m : List (String × SearchEntry)),
      fid ∉ kw.map Prod.fst →
      lookupA (keywordPhase i kw m) fid = lookupA m fid := by
  intro kw
  induction kw with
  | nil => intro i m hns; rfl
  | cons q rest ih =>
    intro i m hns
    rcases q with ⟨k, sc⟩
    simp only [List.map_cons, List.mem_cons, not_or] at hns
    obtain ⟨hk, hrest⟩ := hns
    simp only [keywordPhase]
    by_cases hsc : sc < 2
    · rw [if_pos hsc]; exact ih (i + 1) m hrest
    · rw [if_neg hsc]
      rw [ih (i + 1) _ hrest]
      exact lookupA_setA_ne m k fid _ (fun he => hk he.symm)

theorem keywordPhase_main (fid : String) (raw : ℚ) :
    ∀ (kw : List (String × ℚ)) (i : Nat) (m : List (String × SearchEntry)),
      (kw.map Prod.fst).Nodup → (fid, raw) ∈ kw → 2 ≤ raw →
      lookupA m fid = none →
      ∃ rk, lookupA (keywordPhase i kw m) fid =
        some ⟨min (raw / 10) 1 * (6/5), ["keyword"], some rk, some raw, none⟩ := by
  intro kw
  induction kw with
  | nil => intro i m _ hmem; simp at hmem
  | cons q rest ih =>
    intro i m hnd hmem hraw hnone
    rcases q with ⟨k, sc⟩
    simp only [List.map_cons, List.nodup_cons] at hnd
    obtain ⟨hknotin, hndrest⟩ := hnd
    rcases List.mem_cons.mp hmem with hhead | htail
    · have hk : fid = k := by
        have := congrArg Prod.fst hhead
        simpa using this
      have hsc : raw = sc := by
        have := congrArg Prod.snd hhead
        simpa using this
      subst hk; subst hsc
      simp only [keywordPhase]
      rw [if_neg (not_lt.mpr hraw)]
      refine ⟨i + 1, ?_⟩
      have hfidrest : fid ∉ rest.map Prod.fst := hknotin
      rw [keywordPhase_pres fid rest (i + 1) _ hfidrest]
      exact lookupA_setA_self m fid _
    · have hk : k ≠ fid := by
        intro he
        rw [he] at hknotin
        exact hknotin (List.mem_map.mpr ⟨(fid, raw), htail, rfl⟩)
      simp only [keywordPhase]
      by_cases hsc : sc < 2
      · rw [if_pos hsc]
        exact ih (i + 1) m hndrest htail hraw hnone
      · rw [if_neg hsc]
        refine ih (i + 1) _ hndrest htail hraw ?_
        rw [lookupA_setA_ne m k fid _ hk]
        exact hnone

theorem semanticPhase_pres (resolve : String → Option FileDoc)
    (tf : Option String) (fid : String) :
    ∀ (pairs : List (String × ℚ)) (m : List (String × SearchEntry)),
      fid ∉ pairs.map Prod.fst →
      lookupA (semanticPhase resolve tf pairs m) fid = lookupA m fid := by
  intro pairs
  induction pairs with
  | nil => intro m hns; rfl
  | cons q rest ih =>
    intro m hns
    rcases q with ⟨k, s⟩
    simp only [List.map_cons, List.mem_cons, not_or] at hns
    obtain ⟨hk, hrest⟩ := hns
    have hkne : k ≠ fid := fun he => hk he.symm
    simp only [semanticPhase]
    by_cases hs : s < 1/2
    · rw [if_pos hs]; exact ih m hrest
    · rw [if_neg hs]
      rcases hl : lookupA m k with _ | e
      · rcases hr : resolve k with _ | fd
        · exact ih m hrest
        · show lookupA (if typeSkip tf fd = true
              then semanticPhase resolve tf rest m
              else semanticPhase resolve tf rest
                (setA m k ⟨s, ["semantic"], none, none, some s⟩)) fid
            = lookupA m fid
          by_cases ht : typeSkip tf fd = true
          · rw [if_pos ht]; exact ih m hrest
          · rw [if_neg ht, ih _ hrest]
            exact lookupA_setA_ne m k fid _ hkne
      · rw [ih _ hrest]
        exact lookupA_setA_ne m k fid _ hkne

theorem semanticPhase_main (resolve : String → Option FileDoc)
    (tf : Option String) (fid : String) (s : ℚ) (e : SearchEntry) :
    ∀ (pairs : List (String × ℚ)) (m : List (String × SearchEntry)),
      (pairs.map Prod.fst).Nodup → (fid, s) ∈ pairs → 1/2 ≤ s →
      lookupA m fid = some e →
      lookupA (semanticPhase resolve tf pairs m) fid =
        some { e with
          score := max e.score s * (13/10)
          match_types :=
            if "semantic" ∈ e.match_types then e.match_types
            else e.match_types ++ ["semantic"]
          semantic_similarity := some s } := by
  intro pairs
  induction pairs with
  | nil => intro m _ hmem; simp at hmem
  | cons q rest ih =>
    intro m hnd hmem hs hsome
    rcases q with ⟨k, s2⟩
    simp only [List.map_cons, List.nodup_cons] at hnd
    obtain ⟨hknotin, hndrest⟩ := hnd
    rcases List.mem_cons.mp hmem with hhead | htail
    · have hk : fid = k := by
        have := congrArg Prod.fst hhead
        simpa using this
      have hseq : s = s2 := by
        have := congrArg Prod.snd hhead
        simpa using this
      subst hk; subst hseq
      simp only [semanticPhase]
      rw [if_neg (not_lt.mpr hs), hsome]
      have hfidrest : fid ∉ rest.map Prod.fst := hknotin
      rw [semanticPhase_pres resolve tf fid rest _ hfidrest]
      exact lookupA_setA_self m fid _
    · have hk : k ≠ fid := by
        intro he
        rw [he] at hknotin
        exact hknotin (List.mem_map.mpr ⟨(fid, s), htail, rfl⟩)
      simp only [semanticPhase]
      by_cases hs2 : s2 < 1/2
      · rw [if_pos hs2]
        exact ih m hndrest htail hs hsome
      · rw [if_neg hs2]
        rcases hl : lookupA m k with _ | e2
        · rcases hr : resolve k with _ | fd
          · exact ih m hndrest htail hs hsome
          · show lookupA (if typeSkip tf fd = true
                then semanticPhase resolve tf rest m
                else semanticPhase resolve tf rest
                  (setA m k ⟨s2, ["semantic"], none, none, some s2⟩)) fid
              = _
            by_cases ht : typeSkip tf fd = true
            · rw [if_pos ht]
              exact ih m hndrest htail hs hsome
            · rw [if_neg ht]
              refine ih _ hndrest htail hs ?_
              rw [lookupA_setA_ne m k fid _ hk]
              exact hsome
        · refine ih _ hndrest htail hs ?_
          rw [lookupA_setA_ne m k fid _ hk]
          exact hsome

theorem setA_keys (k : String) (v : β) :
    ∀ m : List (String × β),
      (setA m k v).map Prod.fst =
        (if k ∈ m.map Prod.fst then m.map Prod.fst
         else m.map Prod.fst ++ [k]) := by
  intro m
  induction m with
  | nil => simp [setA]
  | cons q rest ih =>
    rcases q with ⟨k1, v1⟩
    simp only [setA]
    by_cases hk : k1 = k
    · rw [if_pos hk]
      subst hk
      simp
    · rw [if_neg hk]
      simp only [List.map_cons, ih]
      by_cases hkin : k ∈ rest.map Prod.fst
      · rw [if_pos hkin, if_pos (by simp [hkin])]
      · have hne : ¬k = k1 := fun he => hk he.symm
        rw [if_neg hkin, if_neg (by simp [hkin, hne])]
        simp

theorem nodup_setA (k : String) (v : β) (m : List (String × β))
    (h : (m.map Prod.fst).Nodup) : ((setA m k v).map Prod.fst).Nodup := by
  rw [setA_keys]
  by_cases hkin : k ∈ m.map Prod.fst
  · rw [if_pos hkin]; exact h
  · rw [if_neg hkin]
    simp [List.nodup_append, h, hkin]

theorem bestSims_nodup :
    ∀ (chunks : List RankedChunk) (m : List (String × ℚ)),
      (m.map Prod.fst).Nodup → ((bestSims chunks m).map Prod.fst).Nodup := by
  intro chunks
  induction chunks with
  | nil => intro m hm; exact hm
  | cons c rest ih =>
    intro m hm
    simp only [bestSims]
    rcases hl : lookupA m c.file_id with _ | s
    · exact ih _ (nodup_setA _ _ m hm)
    · show (List.map Prod.fst (if s < c.similarity
          then bestSims rest (setA m c.file_id c.similarity)
          else bestSims rest m)).Nodup
      by_cases hgt : s < c.similarity
      · rw [if_pos hgt]; exact ih _ (nodup_setA _ _ m hm)
      · rw [if_neg hgt]; exact ih m hm

/-- C4: a file present in both the keyword arm (raw lexical score `≥ 2.0`,
normalized as `min(score/10, 1.0) × 1.2`) and the semantic arm (best-chunk
similarity `≥ 0.5`) of hybrid search ends up with fused score
`max(norm_keyword, semantic) × 1.3` and match types
`["keyword", "semantic"]`, keeping its keyword rank, raw keyword score and
semantic similarity. -/
theorem hybrid_fusion_boost (sim : List ℚ → List ℚ → ℚ) (qemb : List ℚ)
    (embs : List EmbDoc) (kw : List (String × ℚ))
    (resolve : String → Option FileDoc) (tf : Option String)
    (fid : String) (raw s : ℚ)
    (hnd : (kw.map Prod.fst).Nodup)
    (hmem : (fid, raw) ∈ kw)
    (hraw : 2 ≤ raw)
    (hbest : lookupA (bestSims (find_relevant_content true sim qemb embs 20) [])
      fid = some s)
    (hs : 1/2 ≤ s) :
    ∃ rk, lookupA (smartSearchMap true sim qemb embs kw resolve tf) fid =
      some ⟨max (min (raw / 10) 1 * (6/5)) s * (13/10),
        ["keyword", "semantic"], some rk, some raw, some s⟩ := by
  obtain ⟨rk, hkw⟩ := keywordPhase_main fid raw kw 0 [] hnd hmem hraw rfl
  have hpairsnd :
      ((bestSims (find_relevant_content true sim qemb embs 20) []).map
        Prod.fst).Nodup :=
    bestSims_nodup _ [] (by simp)
  have hpmem : (fid, s) ∈
      bestSims (find_relevant_content true sim qemb embs 20) [] :=
    lookupA_mem _ _ _ hbest
  have hsem := semanticPhase_main resolve tf fid s _ _ _ hpairsnd hpmem hs hkw
  refine ⟨rk, ?_⟩
  show lookupA
      (semanticPhase resolve tf
        (bestSims (find_relevant_content true sim qemb embs 20) [])
        (keywordPhase 0 kw [])) fid = _
  rw [hsem]
  simp

/-- Witness for C4: file `"f1"` with raw keyword score `5` and best chunk
similarity `0.8` fuses to `max(min(5/10,1)×1.2, 0.8) × 1.3`. -/
theorem hybrid_fusion_boost_witness :
    ∃ rk, lookupA
      (smartSearchMap true (fun _ _ => 4/5) [1]
        [⟨"e1", "f1", 0, strL "c", [1]⟩] [("f1", 5)] (fun _ => none) none)
      "f1" =
      some ⟨max (min ((5:ℚ) / 10) 1 * (6/5)) (4/5) * (13/10),
        ["keyword", "semantic"], some rk, some 5, some (4/5)⟩ :=
  hybrid_fusion_boost (fun _ _ => 4/5) [1] [⟨"e1", "f1", 0, strL "c", [1]⟩]
    [("f1", 5)] (fun _ => none) none "f1" 5 (4/5)
    (by simp) (by simp) (by norm_num)
    (by
      norm_num [bestSims, find_relevant_content, rankCandidates,
        collectResults, normSq, sortDescBy, insertDescBy, lookupA, setA,
        List.find?])
    (by norm_num)

theorem buildDocsGo_file_id (eb : List (List Char) → List (Option (List ℚ)))
    (f : String) :
    ∀ (fuel : Nat) (chunks : List (List Char)) (bstart : Nat) (d : EmbDoc),
      d ∈ buildDocsGo eb f fuel chunks bstart → d.file_id = f := by
  intro fuel
  induction fuel with
  | zero => intro chunks bstart d hd; simp [buildDocsGo] at hd
  | succ fuel ih =>
    intro chunks bstart d hd
    match chunks with
    | [] => simp [buildDocsGo] at hd
    | c :: cs =>
      simp only [buildDocsGo] at hd
      rcases List.mem_append.mp hd with hd1 | hd1
      · by_cases hemb : eb ((c :: cs).take 100) = []
        · rw [if_pos hemb] at hd1; simp at hd1
        · rw [if_neg hemb] at hd1
          rcases List.mem_filterMap.mp hd1 with ⟨p, _, hp⟩
          rcases hp2 : p.2.2 with _ | v
          · rw [hp2] at hp; simp at hp
          · rw [hp2] at hp
            simp only [Option.ite_none_right_eq_some, Option.some.injEq] at hp
            obtain ⟨hv, hd2⟩ := hp
            rw [← hd2]
      · exact ih (cs.drop 99) (bstart + 100) d hd1

theorem buildDocsAux_file_id (eb : List (List Char) → List (Option (List ℚ)))
    (f : String) (chunks : List (List Char)) (bstart : Nat) (d : EmbDoc)
    (hd : d ∈ buildDocsAux eb f chunks bstart) : d.file_id = f :=
  buildDocsGo_file_id eb f chunks.length chunks bstart d hd

theorem buildDocsAux_empty (eb : List (List Char) → List (Option (List ℚ)))
    (f : String) (hb : ∀ b, eb b = []) :
    ∀ (fuel : Nat) (chunks : List (List Char)) (bstart : Nat),
      buildDocsGo eb f fuel chunks bstart = [] := by
  intro fuel
  induction fuel with
  | zero => intro chunks bstart; rfl
  | succ fuel ih =>
    intro chunks bstart
    match chunks with
    | [] => rfl
    | c :: cs =>
      simp only [buildDocsGo]
      rw [if_pos (hb _), List.nil_append]
      exact ih (cs.drop 99) (bstart + 100)

theorem filter_ne_then_eq (f : String) : ∀ l : List EmbDoc,
    ((l.filter (fun d => d.file_id ≠ f)).filter
      (fun d => d.file_id = f)) = [] := by
  intro l
  induction l with
  | nil => rfl
  | cons d rest ih =>
    by_cases hd : d.file_id = f
    · simp [List.filter_cons, hd, ih]
    · simp [List.filter_cons, hd, ih]

/-- C5: running `process_file_embeddings` twice in succession for the same
file id leaves exactly the second run's embedding records persisted for
that file — the old records are deleted before the new set is inserted,
with no duplication or accumulation — and marks the file `completed`.
The hypotheses state that the file has embeddable content, that the backend
is configured, and that the (re-)run produces at least one record. -/
theorem replace_semantics (eb : List (List Char) → List (Option (List ℚ)))
    (f : String) (content filename : List Char) (tags : List (List Char))
    (db : Db)
    (hc : ¬(content = [] ∧ tags = []))
    (hd : buildDocsAux eb f (chunk_text (fullText filename tags content) 1000 200) 0 ≠ []) :
    ((process_file_embeddings true eb f content filename tags
        (process_file_embeddings true eb f content filename tags db)).embeddings.filter
      (fun d => d.file_id = f)) =
      buildDocsAux eb f (chunk_text (fullText filename tags content) 1000 200) 0 ∧
    ((process_file_embeddings true eb f content filename tags
        (process_file_embeddings true eb f content filename tags db)).files f).embedding_status
      = "completed" := by
  have hchunks : chunk_text (fullText filename tags content) 1000 200 ≠ [] := by
    intro hnil
    rw [hnil] at hd
    exact hd rfl
  have hdocs_fid : ∀ d ∈ buildDocsAux eb f
      (chunk_text (fullText filename tags content) 1000 200) 0,
      d.file_id = f :=
    fun d hd => buildDocsAux_file_id eb f _ 0 d hd
  have hstep : ∀ s : Db,
      (process_file_embeddings true eb f content filename tags s).embeddings =
        s.embeddings.filter (fun d => d.file_id ≠ f) ++
          buildDocsAux eb f
            (chunk_text (fullText filename tags content) 1000 200) 0 ∧
      ((process_file_embeddings true eb f content filename tags s).files f).embedding_status
        = "completed" := by
    intro s
    unfold process_file_embeddings
    rw [if_neg hc, if_neg (by simp)]
    simp only
    rw [if_neg hchunks, if_pos hd]
    constructor
    · simp [updFile]
    · simp [updFile]
  obtain ⟨h1, _⟩ := hstep db
  obtain ⟨h2, h3⟩ := hstep (process_file_embeddings true eb f content filename tags db)
  refine ⟨?_, h3⟩
  rw [h2, List.filter_append, filter_ne_then_eq]
  rw [List.nil_append, List.filter_eq_self.mpr]
  intro d hdmem
  simp [hdocs_fid d hdmem]

/-- Witness for C5: a file with content `"hi"` is indexed twice against a
backend that embeds every chunk as `[1]`; the store afterwards holds for
`"f"` exactly the second run's single record, and old records are gone. -/
theorem replace_semantics_witness :
    ((process_file_embeddings true (fun b => b.map (fun _ => some [1])) "f"
        (strL "hi") (strL "a.txt") []
        (process_file_embeddings true (fun b => b.map (fun _ => some [1])) "f"
          (strL "hi") (strL "a.txt") []
          ⟨[⟨"old", "f", 0, [], [2]⟩], fun _ => ⟨"pending", none, none⟩⟩)).embeddings.filter
      (fun d => d.file_id = "f")) =
      buildDocsAux (fun b => b.map (fun _ => some [1])) "f"
        (chunk_text (fullText (strL "a.txt") [] (strL "hi")) 1000 200) 0 ∧
    ((process_file_embeddings true (fun b => b.map (fun _ => some [1])) "f"
        (strL "hi") (strL "a.txt") []
        (process_file_embeddings true (fun b => b.map (fun _ => some [1])) "f"
          (strL "hi") (strL "a.txt") []
          ⟨[⟨"old", "f", 0, [], [2]⟩], fun _ => ⟨"pending", none, none⟩⟩)).files "f").embedding_status
      = "completed" :=
  replace_semantics (fun b => b.map (fun _ => some [1])) "f" (strL "hi")
    (strL "a.txt") [] ⟨[⟨"old", "f", 0, [], [2]⟩], fun _ => ⟨"pending", none, none⟩⟩
    (by simp [strL]) (by decide)

theorem chunkTextAux_step (fuel : Nat) (text : List Char)
    (csize overlap start : Nat) :
    chunkTextAux (fuel + 1) text csize overlap start =
      (if start < text.length then
        match chunkTextAux fuel text csize overlap (start + (csize - overlap)) with
        | none => none
        | some rest =>
            some (if pyStrip ((text.drop start).take csize) ≠ []
              then pyStrip ((text.drop start).take csize) :: rest else rest)
      else some []) := rfl

theorem pyStrip_head_ne (c : Char) (t : List Char)
    (h : c.isWhitespace = false) : pyStrip (c :: t) ≠ [] := by
  unfold pyStrip
  rw [List.dropWhile_cons, if_neg (by simp [h])]
  intro hcon
  rw [List.reverse_eq_nil_iff, List.dropWhile_eq_nil_iff] at hcon
  have hc : c ∈ (c :: t).reverse := by simp
  have := hcon c hc
  rw [h] at this
  exact Bool.false_ne_true this

theorem chunk_text_head_ne (c : Char) (t : List Char)
    (h : c.isWhitespace = false) : chunk_text (c :: t) 1000 200 ≠ [] := by
  obtain ⟨rest, hrest⟩ := Option.isSome_iff_exists.mp
    (chunkTextAux_isSome 1000 200 (by norm_num) (c :: t) (t.length + 1)
      (0 + (1000 - 200)) (by simp; omega))
  have hstrip : pyStrip (((c :: t).drop 0).take 1000) ≠ [] := by
    simp only [List.drop_zero]
    rw [show (1000 : Nat) = 999 + 1 from rfl, List.take_succ_cons]
    exact pyStrip_head_ne c _ h
  have hunfold : chunkTextAux ((c :: t).length + 1) (c :: t) 1000 200 0
      = some (pyStrip (((c :: t).drop 0).take 1000) :: rest) := by
    rw [show (c :: t).length + 1 = (t.length + 1) + 1 by simp]
    rw [chunkTextAux_step]
    rw [if_pos (by simp : 0 < (c :: t).length)]
    simp only [hrest]
    rw [if_pos hstrip]
  unfold chunk_text
  rw [hunfold]
  simp

/-- C10 (implicit): for every file whose re-embedding attempt produces zero
new records — the embedding backend returns an empty result for every
batch — the previously persisted embedding records are left unchanged
(deletion happens only when at least one new record is ready to insert),
and the file's status is set to `failed` with the corresponding error
message; the store is never left with the old records deleted but nothing
inserted. -/
theorem no_delete_on_empty_embeddings
    (eb : List (List Char) → List (Option (List ℚ)))
    (f : String) (content filename : List Char) (tags : List (List Char))
    (db : Db)
    (hc : ¬(content = [] ∧ tags = []))
    (hb : ∀ b, eb b = []) :
    (process_file_embeddings true eb f content filename tags db).embeddings
      = db.embeddings ∧
    ((process_file_embeddings true eb f content filename tags db).files f).embedding_status
      = "failed" ∧
    ((process_file_embeddings true eb f content filename tags db).files f).embedding_error
      = some "Embedding generation returned empty results" := by
  have hhead : fullText filename tags content
      = 'F' :: (strL "ile: " ++ filename ++ strL "\nTags: "
          ++ List.intercalate (strL ", ") tags
          ++ strL "\n\nContent:\n" ++ content) := rfl
  have hchunks : chunk_text (fullText filename tags content) 1000 200 ≠ [] := by
    rw [hhead]
    exact chunk_text_head_ne 'F' _ (by decide)
  have hdocs : buildDocsAux eb f
      (chunk_text (fullText filename tags content) 1000 200) 0 = [] :=
    buildDocsAux_empty eb f hb _ _ 0
  unfold process_file_embeddings
  rw [if_neg hc, if_neg (by simp)]
  simp only
  rw [if_neg hchunks, if_neg (by simp [hdocs])]
  refine ⟨by simp [updFile], ?_, ?_⟩
  · simp [updFile]
  · simp [updFile]

/-- Witness for C10: with a backend that returns `[]` for every batch, the
pre-existing record for `"f"` survives untouched and the status is
`failed`. -/
theorem no_delete_on_empty_embeddings_witness :
    (process_file_embeddings true (fun _ => []) "f" (strL "hi")
      (strL "a.txt") []
      ⟨[⟨"old", "f", 0, [], [2]⟩], fun _ => ⟨"pending", none, none⟩⟩).embeddings
      = [⟨"old", "f", 0, [], [2]⟩] ∧
    ((process_file_embeddings true (fun _ => []) "f" (strL "hi")
      (strL "a.txt") []
      ⟨[⟨"old", "f", 0, [], [2]⟩], fun _ => ⟨"pending", none, none⟩⟩).files "f").embedding_status
      = "failed" ∧
    ((process_file_embeddings true (fun _ => []) "f" (strL "hi")
      (strL "a.txt") []
      ⟨[⟨"old", "f", 0, [], [2]⟩], fun _ => ⟨"pending", none, none⟩⟩).files "f").embedding_error
      = some "Embedding generation returned empty results" :=
  no_delete_on_empty_embeddings (fun _ => []) "f" (strL "hi") (strL "a.txt")
    [] ⟨[⟨"old", "f", 0, [], [2]⟩], fun _ => ⟨"pending", none, none⟩⟩
    (by simp [strL]) (fun _ => rfl)

end Rag
